import Mathlib

/-!
Verification of the `pyrva/coding_night` notebook (`src/pathlib_/Answers.ipynb`).

The notebook's code cells are embedded shallowly:
* a filesystem model (`Entry`) with the pathlib operations the cells use
  (`lookup`, `writeText`, `readText`, `mkdirParents`, rename via `renameLoop`);
* the recursive `rmdir` helper of the "Now delete the `new` folder" cell;
* the nested directory-creation loop of the "Let's Make Something" section;
* the image-renaming loop of the "Rename Files" section;
* the HTML pagination loop (`while next_page` with `except TypeError`) and
  the JSON API pagination loop (`has_next` flag) of the scraping notebook.
-/

/-- Python exception kinds raised by the operations the notebook uses. -/
inductive PyErr where
  | fileNotFound
  | notADirectory
  | directoryNotEmpty
  | fileExists
  | isADirectory
  | typeError
  | keyError
deriving DecidableEq, Repr

deriving instance DecidableEq for Except

/-- A filesystem entry: a regular file with text content, a directory with a
named list of children, or an entry that is neither a regular file nor a
directory (e.g. a broken symlink: `is_file()` and `is_dir()` both return
`False` on it). -/
inductive Entry where
  | file (content : String)
  | dir (children : List (String × Entry))
  | other
deriving Repr

/-- `is_dir()` on an entry. -/
def isDirE : Entry → Bool
  | .dir _ => true
  | _ => false

/-- `is_file()` on an entry. -/
def isFileE : Entry → Bool
  | .file _ => true
  | _ => false

/-- Find the child of a directory-children list with the given name. -/
def lookupChild : List (String × Entry) → String → Option Entry
  | [], _ => none
  | (m, e) :: rest, n => if m = n then some e else lookupChild rest n

/-- Replace every child with the given name by a new entry. -/
def replaceChild : List (String × Entry) → String → Entry → List (String × Entry)
  | [], _, _ => []
  | (m, e) :: rest, n, v =>
    if m = n then (m, v) :: replaceChild rest n v else (m, e) :: replaceChild rest n v

/-- Remove every child with the given name. -/
def eraseAllChild : List (String × Entry) → String → List (String × Entry)
  | [], _ => []
  | (m, e) :: rest, n =>
    if m = n then eraseAllChild rest n else (m, e) :: eraseAllChild rest n

/-- Resolve a relative path (list of names) against an entry. -/
def lookup : Entry → List String → Option Entry
  | e, [] => some e
  | .dir cs, n :: rest =>
    match lookupChild cs n with
    | some sub => lookup sub rest
    | none => none
  | _, _ :: _ => none

/-- `Path.read_text()` at a path. -/
def readText (fs : Entry) (p : List String) : Except PyErr String :=
  match lookup fs p with
  | some (.file x) => .ok x
  | some _ => .error .isADirectory
  | none => .error .fileNotFound

/-- `Path.write_text(x)` at a path: the parent directories must exist, and the
target must be absent or a regular file (it is created or overwritten). -/
def writeText : Entry → List String → String → Except PyErr Entry
  | .dir cs, [n], x =>
    match lookupChild cs n with
    | none => .ok (.dir (cs ++ [(n, .file x)]))
    | some (.file _) => .ok (.dir (replaceChild cs n (.file x)))
    | some _ => .error .isADirectory
  | .dir cs, n :: m :: rest, x =>
    match lookupChild cs n with
    | some sub => (writeText sub (m :: rest) x).map (fun sub' => .dir (replaceChild cs n sub'))
    | none => .error .fileNotFound
  | .dir _, [], _ => .error .isADirectory
  | .file _, _, _ => .error .notADirectory
  | .other, _, _ => .error .notADirectory

/-- `Path.mkdir(parents=True)` at a path (`exist_ok` left at its default
`False`): missing intermediate directories are created, but the final
component must not already exist. -/
def mkdirParents : Entry → List String → Except PyErr Entry
  | .dir cs, [n] =>
    match lookupChild cs n with
    | some _ => .error .fileExists
    | none => .ok (.dir (cs ++ [(n, .dir [])]))
  | .dir cs, n :: m :: rest =>
    match lookupChild cs n with
    | some (.dir sub) =>
      (mkdirParents (.dir sub) (m :: rest)).map (fun sub' => .dir (replaceChild cs n sub'))
    | some _ => .error .notADirectory
    | none =>
      (mkdirParents (.dir []) (m :: rest)).map (fun sub' => .dir (cs ++ [(n, sub')]))
  | .dir _, [] => .error .fileExists
  | .file _, _ => .error .notADirectory
  | .other, _ => .error .notADirectory

mutual

/-- The notebook's recursive delete helper, run on the entry `top` denotes:

```
def rmdir(top: Path):
    for file in top.iterdir():
        if file.is_file():
            file.unlink()
        elif file.is_dir():
            rmdir(file)
    top.rmdir()
```

`.ok ()` means the call returned (the subtree was deleted and the final
`top.rmdir()` succeeded); `.error e` means an exception was raised. -/
def rmdir : Entry → Except PyErr Unit
  | .dir cs =>
    match rmdirChildren cs with
    | .error e => .error e
    | .ok true => .ok ()
    | .ok false => .error .directoryNotEmpty
  | _ => .error .notADirectory

/-- The `for file in top.iterdir()` body: regular files are unlinked,
directories are recursively deleted, anything else is skipped.  Returns
whether every child was removed (`true`) or some child remained (`false`);
an exception from a recursive call propagates. -/
def rmdirChildren : List (String × Entry) → Except PyErr Bool
  | [] => .ok true
  | (_, .file _) :: rest => rmdirChildren rest
  | (_, .dir cs) :: rest =>
    match rmdir (.dir cs) with
    | .error e => .error e
    | .ok () => rmdirChildren rest
  | (_, .other) :: rest =>
    match rmdirChildren rest with
    | .error e => .error e
    | .ok _ => .ok false

end

mutual

/-- A tree contains only regular files and directories (no `other` entry). -/
def deepClean : Entry → Bool
  | .file _ => true
  | .other => false
  | .dir cs => deepCleanL cs

/-- `deepClean` for every entry of a children list. -/
def deepCleanL : List (String × Entry) → Bool
  | [] => true
  | (_, e) :: rest => deepClean e && deepCleanL rest

end

mutual

/-- Height of an entry tree. -/
def heightE : Entry → Nat
  | .file _ => 0
  | .other => 0
  | .dir cs => heightL cs + 1

/-- Height of a children list. -/
def heightL : List (String × Entry) → Nat
  | [] => 0
  | (_, e) :: rest => max (heightE e) (heightL rest)

end

/-- Remove the entry at a (nonempty) path from its parent directory. -/
def removeAt : Entry → List String → Entry
  | e, [] => e
  | .dir cs, [n] => .dir (eraseAllChild cs n)
  | .dir cs, n :: m :: rest =>
    .dir (replaceChild cs n (match lookupChild cs n with
      | some sub => removeAt sub (m :: rest)
      | none => .other))
  | .file c, _ :: _ => .file c
  | .other, _ :: _ => .other

/-- `rmdir(path)` as a state transformer on the whole filesystem: look the
path up, run the recursive delete helper on it, and on success the entry is
gone from its parent. -/
def rmdirAt (fs : Entry) (top : List String) : Except PyErr Entry :=
  match lookup fs top with
  | none => .error .fileNotFound
  | some e => (rmdir e).map (fun _ => removeAt fs top)

mutual

/-- Step-counting version of the recursive delete helper: each recursive
entry into a directory consumes one unit of fuel, `none` meaning the
computation was cut off.  Python's recursion has no built-in termination
guarantee, so termination of `rmdir` is the statement that some finite fuel
suffices. -/
def rmdirFuel : Nat → Entry → Option (Except PyErr Unit)
  | _, .file _ => some (.error .notADirectory)
  | _, .other => some (.error .notADirectory)
  | 0, .dir _ => none
  | f + 1, .dir cs =>
    match rmdirChildrenFuel f cs with
    | none => none
    | some (.error e) => some (.error e)
    | some (.ok true) => some (.ok ())
    | some (.ok false) => some (.error .directoryNotEmpty)
termination_by f e => (f, sizeOf e)

/-- Step-counting version of the children iteration of the delete helper. -/
def rmdirChildrenFuel : Nat → List (String × Entry) → Option (Except PyErr Bool)
  | _, [] => some (.ok true)
  | f, (_, .file _) :: rest => rmdirChildrenFuel f rest
  | f, (_, .dir cs) :: rest =>
    match rmdirFuel f (.dir cs) with
    | none => none
    | some (.error e) => some (.error e)
    | some (.ok ()) => rmdirChildrenFuel f rest
  | f, (_, .other) :: rest =>
    match rmdirChildrenFuel f rest with
    | none => none
    | some (.error e) => some (.error e)
    | some (.ok _) => some (.ok false)
termination_by f cs => (f, sizeOf cs)

end

/-! ## The nested directory-creation loop

```
for char in string.ascii_lowercase:
    for i in range(10):
        new = base_dir / 'new' / char / str(i)
        new.mkdir(parents=True)
        (new / 'file.txt').write_text('PyRVA is Awesome!')
```
-/

/-- `string.ascii_lowercase`, character by character. -/
def letters : List String :=
  ["a", "b", "c", "d", "e", "f", "g", "h", "i", "j", "k", "l", "m",
   "n", "o", "p", "q", "r", "s", "t", "u", "v", "w", "x", "y", "z"]

/-- `str(i) for i in range(10)`. -/
def digits : List String :=
  ["0", "1", "2", "3", "4", "5", "6", "7", "8", "9"]

/-- The iteration order of the two nested `for` loops. -/
def pairs : List (String × String) :=
  (letters.map (fun c => digits.map (fun d => (c, d)))).flatten

/-- The body of the nested loop, iterated over the remaining `(char, i)`
pairs, on the `base_dir` entry: `mkdir(parents=True)` at
`new/char/i`, then write `file.txt` inside it.  The loop stops at the first
uncaught exception (there is no handler), returning the state reached so far
and the exception. -/
def mkdirLoopGo : Entry → List (String × String) → Entry × Option PyErr
  | e, [] => (e, none)
  | e, (c, d) :: rest =>
    match mkdirParents e ["new", c, d] with
    | .error err => (e, some err)
    | .ok e1 =>
      match writeText e1 ["new", c, d, "file.txt"] "PyRVA is Awesome!" with
      | .error err => (e1, some err)
      | .ok e2 => mkdirLoopGo e2 rest

/-- The whole directory-creation cell, run on the `base_dir` entry. -/
def mkdirLoop (e : Entry) : Entry × Option PyErr :=
  mkdirLoopGo e pairs

/-- The same loop viewed from inside the `new` directory (paths `char/i`
instead of `new/char/i`). -/
def mkdirLoopSubGo : Entry → List (String × String) → Entry × Option PyErr
  | e, [] => (e, none)
  | e, (c, d) :: rest =>
    match mkdirParents e [c, d] with
    | .error err => (e, some err)
    | .ok e1 =>
      match writeText e1 [c, d, "file.txt"] "PyRVA is Awesome!" with
      | .error err => (e1, some err)
      | .ok e2 => mkdirLoopSubGo e2 rest

/-- The subtree the loop builds under `base_dir/'new'` when run on a fresh
state. -/
def newTree : Entry :=
  (mkdirLoopSubGo (.dir []) pairs).1

/-! ## The image-renaming loop

```
for img in Path('books').rglob('*.jpg'):
    new_name = img.with_name(mapping[img.stem] + img.suffix)
    img.rename(new_name)
```

Paths are modelled by their parent directory, stem and suffix; the
filesystem is the finite set of file paths present. -/

/-- A file path as pathlib decomposes it: parent directory, stem, suffix. -/
structure PathF where
  parent : List String
  stem : String
  suffix : String
deriving DecidableEq, Repr

/-- `img.with_name(mapping[img.stem] + img.suffix)`: same parent, mapped
stem, same suffix (meaningful when the stem has an entry in the mapping). -/
def newPath (m : String → Option String) (p : PathF) : PathF :=
  ⟨p.parent, (m p.stem).getD p.stem, p.suffix⟩

/-- The renaming loop over the snapshot `todo` of `*.jpg` files.  A missing
mapping entry raises `KeyError`; renaming a missing source raises
`FileNotFoundError`; `Path.rename` on POSIX silently replaces an existing
target. -/
def renameLoop (m : String → Option String) :
    Finset PathF → List PathF → Except PyErr (Finset PathF)
  | fs, [] => .ok fs
  | fs, img :: rest =>
    match m img.stem with
    | none => .error .keyError
    | some s =>
      if img ∈ fs then
        renameLoop m (insert ⟨img.parent, s, img.suffix⟩
          ((fs.erase img).erase ⟨img.parent, s, img.suffix⟩)) rest
      else .error .fileNotFound

/-- Number of `.jpg` files in a filesystem state. -/
def jpgCount (fs : Finset PathF) : Nat :=
  (fs.filter (fun p => p.suffix = ".jpg")).card

/-- The mapping is injective on a set of stems (where it is defined). -/
abbrev InjOnStems (m : String → Option String) (S : Finset String) : Prop :=
  ∀ a ∈ S, ∀ b ∈ S, (m a).isSome → m a = m b → a = b

/-! ## The HTML pagination loops

```
next_page = '/page/1/'
while next_page:
    response = requests.get(urljoin(quotes_url, next_page))
    soup = BeautifulSoup(response.content, 'html.parser')
    try:
        next_page = soup.select_one('li.next a')['href']
    except TypeError:
        break
```

A page of the site is abstracted by what the loop reads from it: the
`href` of its `li.next a` element, if the element is present. -/

/-- What one fetched HTML page contributes to the pagination loop. -/
structure HtmlPage where
  nextHref : Option String
deriving DecidableEq, Repr

/-- `soup.select_one('li.next a')['href']`: when the selector matches
nothing, `select_one` returns `None` and the subscript raises `TypeError`. -/
def getNextHref (pg : HtmlPage) : Except PyErr String :=
  match pg.nextHref with
  | none => .error .typeError
  | some h => .ok h

/-- The HTML pagination loop over a site (a map from relative URL to page),
with fuel bounding the number of iterations (`none` = still looping).
Returns the list of URLs fetched, in order.  The `while next_page:` test is
string truthiness, the `except TypeError: break` is the `none` branch of
`getNextHref`. -/
def htmlPaginate (site : String → HtmlPage) : Nat → String → Option (List String)
  | 0, _ => none
  | f + 1, url =>
    if url = "" then some []
    else
      match getNextHref (site url) with
      | .error _ => some [url]
      | .ok h => (htmlPaginate site f h).map (fun t => url :: t)

/-! ## The JSON API pagination loops

```
next_page = 1
while next_page:
    response = requests.get(quotes_url_json, params={'page': next_page})
    data = response.json()
    if data['has_next']:
        next_page += 1
    else:
        break
```

The API is abstracted by its `has_next` flag per page number. -/

/-- The JSON pagination loop: returns the list of page numbers requested and
the final value of `next_page`, with fuel bounding the iterations
(`none` = still looping).  `while next_page:` on an `int` tests
nonzeroness. -/
def jsonPaginate (api : Nat → Bool) : Nat → Nat → Option (List Nat × Nat)
  | 0, _ => none
  | f + 1, p =>
    if p = 0 then some ([], p)
    else if api p then
      (jsonPaginate api f (p + 1)).map (fun r => (p :: r.1, r.2))
    else some ([p], p)

/-! ## Exception-handling inventory

The notebook contains exactly two `try`/`except` statements, both of the
form `except TypeError:` around the next-link lookup of the two HTML
pagination loops, and no other `try` statement (the login cell has one
`assert`, which raises but catches nothing). -/

/-- The kind of an `except` clause: bare (`except:`) or typed. -/
inductive HandlerKind where
  | bare
  | typed (exc : String)
deriving DecidableEq, Repr

/-- Every exception handler in the notebook, in source order: the
`except TypeError:` of the page-counting loop and of the quote-collecting
loop. -/
def exceptionHandlers : List HandlerKind :=
  [.typed "TypeError", .typed "TypeError"]

/-! ## Concrete inputs for witnesses and counterexamples -/

/-- A small filesystem: a `new` directory holding a file and a nested
directory with a file. -/
def demoFs : Entry :=
  .dir [("new", .dir [("file.txt", .file "PyRVA is Awesome!"),
                      ("sub", .dir [("inner.txt", .file "hi")])]),
        ("keep.txt", .file "stay")]

/-- A two-page demo site: page 1 links to page 2, page 2 has no next link. -/
def demoSite : String → HtmlPage := fun u =>
  if u = "/page/1/" then ⟨some "/page/2/"⟩ else ⟨none⟩

/-- A demo API with three pages: `has_next` is true on pages 1 and 2,
false from page 3 on. -/
def demoApi : Nat → Bool := fun p => decide (p < 3)

/-- Image file `books/a.jpg`. -/
def imgA : PathF := ⟨["books"], "a", ".jpg"⟩

/-- Image file `books/b.jpg`. -/
def imgB : PathF := ⟨["books"], "b", ".jpg"⟩

/-- A mapping sending stem `a` to `b` and stem `b` to `c`: injective on
the stems `a`, `b`, yet `a`'s new name collides with `b`'s old name. -/
def demoMap : String → Option String := fun s =>
  if s = "a" then some "b" else if s = "b" then some "c" else none

/-! ## Lemmas about the filesystem primitives -/

theorem lookupChild_append_self (cs : List (String × Entry)) (n : String) (e : Entry)
    (h : lookupChild cs n = none) : lookupChild (cs ++ [(n, e)]) n = some e := by
  induction cs with
  | nil => simp [lookupChild]
  | cons p rest ih =>
    obtain ⟨m, e'⟩ := p
    by_cases hm : m = n
    · simp [lookupChild, hm] at h
    · simp only [lookupChild, hm, if_false, List.cons_append] at h ⊢
      exact ih h

theorem replaceChild_of_none (cs : List (String × Entry)) (n : String) (v : Entry)
    (h : lookupChild cs n = none) : replaceChild cs n v = cs := by
  induction cs with
  | nil => simp [replaceChild]
  | cons p rest ih =>
    obtain ⟨m, e'⟩ := p
    by_cases hm : m = n
    · simp [lookupChild, hm] at h
    · simp only [lookupChild, hm, if_false] at h
      simp [replaceChild, hm, ih h]

theorem lookupChild_replaceChild (cs : List (String × Entry)) (n : String) (v : Entry) :
    lookupChild (replaceChild cs n v) n = (lookupChild cs n).map (fun _ => v) := by
  induction cs with
  | nil => simp [lookupChild, replaceChild]
  | cons p rest ih =>
    obtain ⟨m, e'⟩ := p
    by_cases hm : m = n
    · simp [lookupChild, replaceChild, hm]
    · simp [lookupChild, replaceChild, hm, ih]

theorem lookupChild_eraseAllChild (cs : List (String × Entry)) (n : String) :
    lookupChild (eraseAllChild cs n) n = none := by
  induction cs with
  | nil => simp [lookupChild, eraseAllChild]
  | cons p rest ih =>
    obtain ⟨m, e'⟩ := p
    by_cases hm : m = n
    · simp [eraseAllChild, hm, ih]
    · simp [eraseAllChild, lookupChild, hm, ih]

theorem replaceChild_append (cs ds : List (String × Entry)) (n : String) (v : Entry) :
    replaceChild (cs ++ ds) n v = replaceChild cs n v ++ replaceChild ds n v := by
  induction cs with
  | nil => simp [replaceChild]
  | cons p rest ih =>
    obtain ⟨m, e'⟩ := p
    by_cases hm : m = n <;> simp [replaceChild, hm, ih]

theorem lookup_append_of_none (p : List String) :
    ∀ (fs : Entry) (q : List String), lookup fs p = none → lookup fs (p ++ q) = none := by
  induction p with
  | nil => intro fs q h; simp [lookup] at h
  | cons n rest ih =>
    intro fs q h
    cases fs with
    | file c => simp [lookup]
    | other => simp [lookup]
    | dir cs =>
      simp only [lookup, List.cons_append] at h ⊢
      cases hc : lookupChild cs n with
      | none => simp
      | some sub => rw [hc] at h; exact ih sub q h

theorem lookup_removeAt_self :
    ∀ (fs : Entry) (p : List String), p ≠ [] → lookup (removeAt fs p) p = none
  | _, [], h => absurd rfl h
  | .file c, [n], _ => by simp [removeAt, lookup]
  | .other, [n], _ => by simp [removeAt, lookup]
  | .dir cs, [n], _ => by
    simp [removeAt, lookup, lookupChild_eraseAllChild]
  | .file c, n :: m :: rest, _ => by simp [removeAt, lookup]
  | .other, n :: m :: rest, _ => by simp [removeAt, lookup]
  | .dir cs, n :: m :: rest, _ => by
    simp only [removeAt, lookup, lookupChild_replaceChild]
    cases hc : lookupChild cs n with
    | none => simp
    | some sub =>
      simp only [Option.map_some']
      exact lookup_removeAt_self sub (m :: rest) (by simp)

theorem writeText_lookup :
    ∀ (fs : Entry) (p : List String) (x : String) (fs' : Entry),
      writeText fs p x = .ok fs' → lookup fs' p = some (.file x)
  | .file c, p, x, fs', h => by simp [writeText] at h
  | .other, p, x, fs', h => by simp [writeText] at h
  | .dir cs, [], x, fs', h => by simp [writeText] at h
  | .dir cs, [n], x, fs', h => by
    simp only [writeText] at h
    cases hc : lookupChild cs n with
    | none =>
      rw [hc] at h
      cases h
      simp [lookup, lookupChild_append_self cs n _ hc]
    | some e =>
      rw [hc] at h
      cases e with
      | file c' =>
        cases h
        simp [lookup, lookupChild_replaceChild, hc]
      | dir ds => simp at h
      | other => simp at h
  | .dir cs, n :: m :: rest, x, fs', h => by
    simp only [writeText] at h
    cases hc : lookupChild cs n with
    | none => rw [hc] at h; simp at h
    | some sub =>
      simp only [hc] at h
      cases hw : writeText sub (m :: rest) x with
      | error e => simp only [hw, Except.map] at h; exact Except.noConfusion h
      | ok sub' =>
        simp only [hw, Except.map, Except.ok.injEq] at h
        subst h
        simp only [lookup, lookupChild_replaceChild, hc, Option.map_some']
        exact writeText_lookup sub (m :: rest) x sub' hw

/-! ## C5: write-then-read round-trip -/

/-- C5: for every text `X`, after writing `X` to a fresh file with
`write_text(X)` (the write succeeding), reading the same path back with
`read_text()` returns exactly `X`. -/
theorem write_read_roundtrip (fs fs' : Entry) (p : List String) (x : String)
    (hfresh : lookup fs p = none) (hw : writeText fs p x = .ok fs') :
    readText fs' p = .ok x := by
  unfold readText
  rw [writeText_lookup fs p x fs' hw]

/-- Witness for C5 at a concrete input: writing `PyRVA` to the fresh file
`example.txt` in an empty directory and reading it back. -/
theorem write_read_roundtrip_witness :
    lookup (.dir []) ["example.txt"] = none ∧
    readText (.dir [("example.txt", .file "PyRVA")]) ["example.txt"] = .ok "PyRVA" :=
  ⟨rfl, write_read_roundtrip (.dir []) (.dir [("example.txt", .file "PyRVA")])
    ["example.txt"] "PyRVA" rfl rfl⟩

/-! ## Characterisation of the recursive delete helper -/

theorem rmdirChildren_iff_of (N : Nat)
    (hE : ∀ e, heightE e ≤ N → (rmdir e = .ok () ↔ isDirE e = true ∧ deepClean e = true)) :
    ∀ cs, heightL cs ≤ N → (rmdirChildren cs = .ok true ↔ deepCleanL cs = true) := by
  intro cs
  induction cs with
  | nil => intro _; simp [rmdirChildren, deepCleanL]
  | cons p rest ih =>
    obtain ⟨n, e⟩ := p
    intro hcs
    have h1 : heightE e ≤ N := le_trans (le_max_left _ _) (by simpa [heightL] using hcs)
    have h2 : heightL rest ≤ N := le_trans (le_max_right _ _) (by simpa [heightL] using hcs)
    cases e with
    | file c => simpa [rmdirChildren, deepCleanL, deepClean] using ih h2
    | other =>
      simp only [rmdirChildren, deepCleanL, deepClean, Bool.false_and]
      cases hr : rmdirChildren rest <;> simp
    | dir cs' =>
      have hd := hE (.dir cs') h1
      simp only [isDirE, true_and] at hd
      simp only [rmdirChildren, deepCleanL]
      cases hr : rmdir (.dir cs') with
      | error err =>
        have hnc : ¬ deepClean (.dir cs') = true := by
          rw [← hd, hr]; simp
        simp only [Bool.and_eq_true]
        simp [hnc]
      | ok u =>
        obtain ⟨⟩ := u
        have hc : deepClean (.dir cs') = true := hd.mp hr
        simp [hc, ih h2]

theorem rmdir_ok_iff_aux :
    ∀ (N : Nat) (e : Entry), heightE e ≤ N →
      (rmdir e = .ok () ↔ isDirE e = true ∧ deepClean e = true) := by
  intro N
  induction N with
  | zero =>
    intro e he
    cases e with
    | file c => simp [rmdir, isDirE]
    | other => simp [rmdir, isDirE]
    | dir cs => simp [heightE] at he
  | succ N ih =>
    intro e he
    cases e with
    | file c => simp [rmdir, isDirE]
    | other => simp [rmdir, isDirE]
    | dir cs =>
      have hcs : heightL cs ≤ N := by simp [heightE] at he; omega
      have hlist := rmdirChildren_iff_of N ih cs hcs
      simp only [rmdir, isDirE, deepClean, true_and]
      cases hr : rmdirChildren cs with
      | error err =>
        have hnc : ¬ deepCleanL cs = true := by rw [← hlist, hr]; simp
        simp [hnc]
      | ok b =>
        cases b with
        | true => simp [hlist.mp hr]
        | false =>
          have hnc : ¬ deepCleanL cs = true := by
            intro hc
            have := hlist.mpr hc
            rw [hr] at this
            simp at this
          simp [hnc]

theorem rmdir_ok_iff (e : Entry) :
    rmdir e = .ok () ↔ (isDirE e = true ∧ deepClean e = true) :=
  rmdir_ok_iff_aux (heightE e) e le_rfl

/-! ## C1: the recursive delete removes the whole tree -/

/-- C1: for every directory whose tree contains only regular files and
subdirectories, `rmdir(top)` succeeds (every file is unlinked, every
subdirectory recursively deleted, and the final `top.rmdir()` on the
now-empty directory returns), and afterwards `top` and everything under it
no longer exist. -/
theorem rmdir_removes_tree (fs e : Entry) (top : List String)
    (hne : top ≠ []) (hl : lookup fs top = some e)
    (hdir : isDirE e = true) (hclean : deepClean e = true) :
    ∃ fs', rmdirAt fs top = .ok fs' ∧ ∀ q, lookup fs' (top ++ q) = none := by
  have hok : rmdir e = .ok () := (rmdir_ok_iff e).mpr ⟨hdir, hclean⟩
  refine ⟨removeAt fs top, ?_, ?_⟩
  · simp only [rmdirAt, hl, hok, Except.map]
  · intro q
    exact lookup_append_of_none top (removeAt fs top) q (lookup_removeAt_self fs top hne)

/-- Witness for C1 at a concrete input: deleting the `new` directory of
`demoFs`, which holds a file and a nested directory with a file. -/
theorem rmdir_removes_tree_witness :
    (["new"] : List String) ≠ [] ∧
    isDirE (.dir [("file.txt", .file "PyRVA is Awesome!"),
                  ("sub", .dir [("inner.txt", .file "hi")])]) = true ∧
    ∃ fs', rmdirAt demoFs ["new"] = .ok fs' ∧
      ∀ q, lookup fs' (["new"] ++ q) = none :=
  ⟨by simp, rfl,
    rmdir_removes_tree demoFs
      (.dir [("file.txt", .file "PyRVA is Awesome!"),
             ("sub", .dir [("inner.txt", .file "hi")])])
      ["new"] (by simp) rfl rfl (by simp [deepClean, deepCleanL])⟩

/-! ## C6: behaviour on trees with entries that are neither files nor dirs -/

/-- C6 counterexample: on a directory holding one entry that is neither a
regular file nor a directory (e.g. a broken symlink), `rmdir` does not
complete without error: the entry is skipped by both branches and the final
`top.rmdir()` raises `directory not empty`. -/
theorem rmdir_other_entry_fails :
    isDirE (.dir [("broken", .other)]) = true ∧
    rmdir (.dir [("broken", .other)]) = .error .directoryNotEmpty := by
  refine ⟨rfl, ?_⟩
  simp [rmdir, rmdirChildren]

/-- C6 (amended): `rmdir` on a directory completes without error exactly
when the tree under it contains only regular files and subdirectories; any
entry that is neither is skipped, left in place, and makes the call raise. -/
theorem rmdir_ok_iff_clean (cs : List (String × Entry)) :
    rmdir (.dir cs) = .ok () ↔ deepCleanL cs = true := by
  simpa [isDirE, deepClean] using rmdir_ok_iff (.dir cs)

/-! ## C8: termination of the recursive delete -/

theorem rmdirFuel_adequate_aux :
    ∀ f : Nat,
      (∀ e, heightE e < f → rmdirFuel f e = some (rmdir e)) ∧
      (∀ cs, heightL cs < f → rmdirChildrenFuel f cs = some (rmdirChildren cs)) := by
  intro f
  induction f with
  | zero => exact ⟨fun e he => absurd he (by omega), fun cs hcs => absurd hcs (by omega)⟩
  | succ f ih =>
    have hE : ∀ e, heightE e < f + 1 → rmdirFuel (f + 1) e = some (rmdir e) := by
      intro e he
      cases e with
      | file c => simp [rmdirFuel, rmdir]
      | other => simp [rmdirFuel, rmdir]
      | dir cs =>
        have hcs : heightL cs < f := by simp [heightE] at he; omega
        have hl := ih.2 cs hcs
        simp only [rmdirFuel, hl, rmdir]
        cases hr : rmdirChildren cs with
        | error e => simp
        | ok b => cases b <;> simp
    refine ⟨hE, ?_⟩
    intro cs
    induction cs with
    | nil => intro _; simp [rmdirChildrenFuel, rmdirChildren]
    | cons p rest ihl =>
      obtain ⟨n, e⟩ := p
      intro hcs
      have h1 : heightE e < f + 1 := lt_of_le_of_lt (le_max_left _ _) (by simpa [heightL] using hcs)
      have h2 : heightL rest < f + 1 := lt_of_le_of_lt (le_max_right _ _) (by simpa [heightL] using hcs)
      cases e with
      | file c => simpa [rmdirChildrenFuel, rmdirChildren] using ihl h2
      | other =>
        simp only [rmdirChildrenFuel, rmdirChildren, ihl h2]
        cases rmdirChildren rest <;> simp
      | dir cs' =>
        simp only [rmdirChildrenFuel, rmdirChildren, hE (.dir cs') h1]
        cases rmdir (.dir cs') with
        | error err => simp
        | ok u =>
          obtain ⟨⟩ := u
          simp [ihl h2]

/-- C8: the recursive delete terminates on every finite directory tree:
fuel `heightE e + 1` (one unit per directory level) already suffices for
the step-counting version to return the value of the recursive helper,
so the traversal cannot loop forever. -/
theorem rmdir_terminates (e : Entry) :
    rmdirFuel (heightE e + 1) e = some (rmdir e) :=
  (rmdirFuel_adequate_aux (heightE e + 1)).1 e (by omega)

/-! ## C2: the HTML pagination loop -/

theorem getNextHref_ok_iff (pg : HtmlPage) (h : String) :
    getNextHref pg = .ok h ↔ pg.nextHref = some h := by
  cases hp : pg.nextHref <;> simp [getNextHref, hp]

theorem getNextHref_error_iff (pg : HtmlPage) (e : PyErr) :
    getNextHref pg = .error e ↔ (pg.nextHref = none ∧ e = .typeError) := by
  cases hp : pg.nextHref <;> simp [getNextHref, hp, eq_comm]

theorem htmlPaginate_det (site : String → HtmlPage) :
    ∀ (m : Nat) (u : String) (l : List String),
      htmlPaginate site m u = some l →
      ∀ (n : Nat) (l' : List String), htmlPaginate site n u = some l' → l = l' := by
  intro m
  induction m with
  | zero => intro u l h; simp [htmlPaginate] at h
  | succ m ih =>
    intro u l h n l' h'
    cases n with
    | zero => simp [htmlPaginate] at h'
    | succ n =>
      simp only [htmlPaginate] at h h'
      by_cases hu : u = ""
      · simp only [hu, if_true, Option.some.injEq] at h h'
        rw [← h, ← h']
      · simp only [hu, if_false] at h h'
        cases hh : getNextHref (site u) with
        | error e =>
          simp only [hh, Option.some.injEq] at h h'
          rw [← h, ← h']
        | ok nxt =>
          simp only [hh] at h h'
          cases hr : htmlPaginate site m nxt with
          | none => simp [hr] at h
          | some t =>
            simp only [hr, Option.map_some', Option.some.injEq] at h
            cases hr' : htmlPaginate site n nxt with
            | none => simp [hr'] at h'
            | some t' =>
              simp only [hr', Option.map_some', Option.some.injEq] at h'
              rw [← h, ← h', ih nxt t hr n t' hr']

theorem htmlPaginate_mem_suffix (site : String → HtmlPage) :
    ∀ (n : Nat) (u : String) (l : List String),
      htmlPaginate site n u = some l →
      ∀ v ∈ l, ∃ m t, htmlPaginate site m v = some t ∧ t <:+ l := by
  intro n
  induction n with
  | zero => intro u l h; simp [htmlPaginate] at h
  | succ n ih =>
    intro u l h v hv
    simp only [htmlPaginate] at h
    by_cases hu : u = ""
    · simp only [hu, if_true, Option.some.injEq] at h
      rw [← h] at hv
      simp at hv
    · simp only [hu, if_false] at h
      cases hh : getNextHref (site u) with
      | error e =>
        simp only [hh, Option.some.injEq] at h
        rw [← h] at hv
        simp only [List.mem_singleton] at hv
        subst hv
        exact ⟨n + 1, l, by simp only [htmlPaginate, hu, if_false, hh, ← h], by rw [← h]⟩
      | ok nxt =>
        simp only [hh] at h
        cases hr : htmlPaginate site n nxt with
        | none => simp [hr] at h
        | some t =>
          simp only [hr, Option.map_some', Option.some.injEq] at h
          subst h
          rcases List.mem_cons.mp hv with hvu | hvt
          · refine ⟨n + 1, u :: t, ?_, List.suffix_rfl⟩
            rw [hvu]
            simp only [htmlPaginate, hu, if_false, hh, hr, Option.map_some']
          · obtain ⟨m, s, hs, hsuf⟩ := ih nxt t hr v hvt
            exact ⟨m, s, hs, hsuf.trans (List.suffix_cons u t)⟩

theorem htmlPaginate_nodup (site : String → HtmlPage) :
    ∀ (n : Nat) (u : String) (l : List String),
      htmlPaginate site n u = some l → l.Nodup := by
  intro n
  induction n with
  | zero => intro u l h; simp [htmlPaginate] at h
  | succ n ih =>
    intro u l h
    have horig := h
    simp only [htmlPaginate] at h
    by_cases hu : u = ""
    · simp only [hu, if_true, Option.some.injEq] at h
      rw [← h]; simp
    · simp only [hu, if_false] at h
      cases hh : getNextHref (site u) with
      | error e =>
        simp only [hh, Option.some.injEq] at h
        rw [← h]; simp
      | ok nxt =>
        simp only [hh] at h
        cases hr : htmlPaginate site n nxt with
        | none => simp [hr] at h
        | some t =>
          simp only [hr, Option.map_some', Option.some.injEq] at h
          subst h
          refine List.nodup_cons.mpr ⟨?_, ih nxt t hr⟩
          intro hu_mem
          obtain ⟨m, s, hs, hsuf⟩ := htmlPaginate_mem_suffix site n nxt t hr u hu_mem
          have : s = u :: t := htmlPaginate_det site m u s hs (n + 1) (u :: t) horig
          subst this
          have := hsuf.length_le
          simp at this

theorem htmlPaginate_head (site : String → HtmlPage) (n : Nat) (u : String)
    (l : List String) (hu : u ≠ "") (h : htmlPaginate site n u = some l) :
    l.head? = some u := by
  cases n with
  | zero => simp [htmlPaginate] at h
  | succ n =>
    simp only [htmlPaginate, hu, if_false] at h
    cases hh : getNextHref (site u) with
    | error e =>
      simp only [hh, Option.some.injEq] at h
      rw [← h]; rfl
    | ok nxt =>
      simp only [hh] at h
      cases hr : htmlPaginate site n nxt with
      | none => simp [hr] at h
      | some t =>
        simp only [hr, Option.map_some', Option.some.injEq] at h
        rw [← h]; rfl

theorem htmlPaginate_chain_aux (site : String → HtmlPage)
    (hne : ∀ v, (site v).nextHref ≠ some "") :
    ∀ (n : Nat) (u : String) (l : List String), u ≠ "" →
      htmlPaginate site n u = some l →
      List.Chain' (fun a b => (site a).nextHref = some b) l := by
  intro n
  induction n with
  | zero => intro u l _ h; simp [htmlPaginate] at h
  | succ n ih =>
    intro u l hu h
    simp only [htmlPaginate, hu, if_false] at h
    cases hh : getNextHref (site u) with
    | error e =>
      simp only [hh, Option.some.injEq] at h
      rw [← h]; simp
    | ok nxt =>
      simp only [hh] at h
      cases hr : htmlPaginate site n nxt with
      | none => simp [hr] at h
      | some t =>
        simp only [hr, Option.map_some', Option.some.injEq] at h
        subst h
        have hnxt : (site u).nextHref = some nxt := (getNextHref_ok_iff _ _).mp hh
        have hnxt_ne : nxt ≠ "" := by
          intro hcon
          exact hne u (by rw [hnxt, hcon])
        refine List.chain'_cons'.mpr ⟨?_, ih nxt t hnxt_ne hr⟩
        intro b hb
        rw [htmlPaginate_head site n nxt t hnxt_ne hr] at hb
        cases hb
        exact hnxt

theorem htmlPaginate_last_aux (site : String → HtmlPage)
    (hne : ∀ v, (site v).nextHref ≠ some "") :
    ∀ (n : Nat) (u : String) (l : List String), u ≠ "" →
      htmlPaginate site n u = some l →
      ∃ z, l.getLast? = some z ∧ (site z).nextHref = none := by
  intro n
  induction n with
  | zero => intro u l _ h; simp [htmlPaginate] at h
  | succ n ih =>
    intro u l hu h
    simp only [htmlPaginate, hu, if_false] at h
    cases hh : getNextHref (site u) with
    | error e =>
      simp only [hh, Option.some.injEq] at h
      refine ⟨u, by rw [← h]; rfl, ?_⟩
      exact ((getNextHref_error_iff _ _).mp hh).1
    | ok nxt =>
      simp only [hh] at h
      cases hr : htmlPaginate site n nxt with
      | none => simp [hr] at h
      | some t =>
        simp only [hr, Option.map_some', Option.some.injEq] at h
        subst h
        have hnxt_ne : nxt ≠ "" := by
          intro hcon
          exact hne u (by rw [(getNextHref_ok_iff _ _).mp hh, hcon])
        obtain ⟨z, hz, hzn⟩ := ih nxt t hnxt_ne hr
        refine ⟨z, ?_, hzn⟩
        cases t with
        | nil => simp at hz
        | cons a as => rw [List.getLast?_cons_cons]; exact hz

/-- C2: when the HTML pagination loop terminates on a site whose next-links
are never the empty string, the URLs it fetched, in order, start at
`/page/1/`, are linked each to the next by the pages' `li.next a` hrefs,
end at the unique page of the chain with no next link, and contain no URL
twice: every page in the chain is fetched exactly once, in order. -/
theorem html_pagination_chain (site : String → HtmlPage) (fuel : Nat)
    (pages : List String)
    (hne : ∀ v, (site v).nextHref ≠ some "")
    (hrun : htmlPaginate site fuel "/page/1/" = some pages) :
    pages.head? = some "/page/1/" ∧
    List.Chain' (fun a b => (site a).nextHref = some b) pages ∧
    (∃ z, pages.getLast? = some z ∧ (site z).nextHref = none) ∧
    pages.Nodup := by
  refine ⟨htmlPaginate_head site fuel _ pages (by simp) hrun,
    htmlPaginate_chain_aux site hne fuel _ pages (by simp) hrun,
    htmlPaginate_last_aux site hne fuel _ pages (by simp) hrun,
    htmlPaginate_nodup site fuel _ pages hrun⟩

/-- Witness for C2 at a concrete input: the two-page `demoSite` with fuel 3
fetches exactly `/page/1/` then `/page/2/`. -/
theorem html_pagination_chain_witness :
    htmlPaginate demoSite 3 "/page/1/" = some ["/page/1/", "/page/2/"] ∧
    (["/page/1/", "/page/2/"].head? = some "/page/1/" ∧
     List.Chain' (fun a b => (demoSite a).nextHref = some b) ["/page/1/", "/page/2/"] ∧
     (∃ z, ["/page/1/", "/page/2/"].getLast? = some z ∧ (demoSite z).nextHref = none) ∧
     ["/page/1/", "/page/2/"].Nodup) := by
  have hne : ∀ v, (demoSite v).nextHref ≠ some "" := by
    intro v
    by_cases hv : v = "/page/1/" <;> simp [demoSite, hv]
  have hrun : htmlPaginate demoSite 3 "/page/1/" = some ["/page/1/", "/page/2/"] := by
    simp [htmlPaginate, demoSite, getNextHref]
  exact ⟨hrun, html_pagination_chain demoSite 3 ["/page/1/", "/page/2/"] hne hrun⟩

/-! ## C3: the JSON API pagination loop -/

theorem jsonPaginate_range (api : Nat → Bool) (k : Nat) (hk : api k = false)
    (hmin : ∀ j, j < k → 1 ≤ j → api j = true) :
    ∀ (f p : Nat), 1 ≤ p → p ≤ k → k - p < f →
      jsonPaginate api f p = some (List.range' p (k - p + 1), k) := by
  intro f
  induction f with
  | zero => intro p _ _ hf; omega
  | succ f ih =>
    intro p hp1 hpk hf
    have hpne : ¬ p = 0 := by omega
    by_cases hpe : p = k
    · subst hpe
      simp only [jsonPaginate, hpne, if_false, hk, Bool.false_eq_true, if_false]
      have : p - p + 1 = 1 := by omega
      simp [this, List.range']
    · have hplt : p < k := by omega
      have hap : api p = true := hmin p hplt hp1
      simp only [jsonPaginate, hpne, if_false, hap, if_true]
      rw [ih (p + 1) (by omega) (by omega) (by omega)]
      simp only [Option.map_some', Option.some.injEq]
      have harith : k - p + 1 = (k - (p + 1) + 1) + 1 := by omega
      rw [harith, List.range'_succ p (k - (p + 1) + 1) 1]

/-- C3: the JSON pagination loop requests pages `1, 2, ..., k` in strictly
increasing order, where page `k` is the first whose `has_next` flag is
false; it stops there and the loop's final `next_page` — the page count the
cell reports — equals `k`, the number of that final page. -/
theorem json_pagination_pages (api : Nat → Bool) (k fuel : Nat)
    (h1 : 1 ≤ k) (hk : api k = false)
    (hmin : ∀ j, j < k → 1 ≤ j → api j = true) (hf : k ≤ fuel) :
    jsonPaginate api fuel 1 = some (List.range' 1 k, k) := by
  have h := jsonPaginate_range api k hk hmin fuel 1 le_rfl h1 (by omega)
  rwa [Nat.sub_add_cancel h1] at h

/-- Witness for C3 at a concrete input: `demoApi` has `has_next` true on
pages 1 and 2 and false on page 3, so the loop fetches pages 1, 2, 3 and
reports 3 pages. -/
theorem json_pagination_pages_witness :
    List.range' 1 3 = [1, 2, 3] ∧
    jsonPaginate demoApi 4 1 = some (List.range' 1 3, 3) :=
  ⟨rfl, json_pagination_pages demoApi 3 4 (by decide) (by decide)
    (by decide) (by decide)⟩

/-! ## C4: the exception-handling inventory -/

/-- C4 counterexample: the notebook's failure handling is not a single bare
`except:` clause — the handler inventory transcribed from the source is two
`except TypeError:` clauses, not one bare one. -/
theorem single_bare_handler_false :
    exceptionHandlers ≠ [HandlerKind.bare] := by decide

/-- C4 (amended): the notebook's only exception handling is two identical
`except TypeError:` catches, one in each HTML pagination loop; each one
fires exactly when the page has no `li.next a` element (subscripting the
`None` returned by `select_one` raises `TypeError`), which is how the loop
breaks.  (The login cell's `assert` raises but catches nothing.) -/
theorem exception_handlers_amended :
    exceptionHandlers = [HandlerKind.typed "TypeError", HandlerKind.typed "TypeError"] ∧
    ∀ pg : HtmlPage, (getNextHref pg = .error .typeError ↔ pg.nextHref = none) := by
  refine ⟨rfl, ?_⟩
  intro pg
  cases hp : pg.nextHref <;> simp [getNextHref, hp]

/-! ## C9: the image-renaming loop -/

theorem renameLoop_ok (m : String → Option String) :
    ∀ (todo : List PathF) (fs : Finset PathF),
      todo.Nodup →
      (∀ p ∈ todo, p ∈ fs) →
      (∀ p ∈ todo, (m p.stem).isSome) →
      (∀ p ∈ todo, p.suffix = ".jpg") →
      (∀ p ∈ todo, ∀ q ∈ todo, p ≠ q → newPath m p ≠ newPath m q) →
      (∀ p ∈ todo, newPath m p ∉ fs.erase p) →
      ∃ fs', renameLoop m fs todo = .ok fs' ∧
        jpgCount fs' = jpgCount fs ∧ fs'.card = fs.card ∧
        fs' ⊆ fs ∪ (todo.map (newPath m)).toFinset := by
  intro todo
  induction todo with
  | nil =>
    intro fs _ _ _ _ _ _
    exact ⟨fs, rfl, rfl, rfl, by simp⟩
  | cons img rest ih =>
    intro fs hnd hmem hsome hjpg hinj hfresh
    obtain ⟨s, hs⟩ := Option.isSome_iff_exists.mp (hsome img (by simp))
    have himg : img ∈ fs := hmem img (by simp)
    have hnp : newPath m img = ⟨img.parent, s, img.suffix⟩ := by simp [newPath, hs]
    have hfresh_img : (⟨img.parent, s, img.suffix⟩ : PathF) ∉ fs.erase img := by
      rw [← hnp]; exact hfresh img (by simp)
    have himg_rest : img ∉ rest := (List.nodup_cons.mp hnd).1
    have hstep : renameLoop m fs (img :: rest) =
        renameLoop m (insert ⟨img.parent, s, img.suffix⟩
          ((fs.erase img).erase ⟨img.parent, s, img.suffix⟩)) rest := by
      simp [renameLoop, hs, himg]
    rw [Finset.erase_eq_of_not_mem hfresh_img] at hstep
    set np : PathF := ⟨img.parent, s, img.suffix⟩ with hnp_def
    set fs1 : Finset PathF := insert np (fs.erase img) with hfs1
    have himg_jpg : img.suffix = ".jpg" := hjpg img (by simp)
    have hnp_jpg : np.suffix = ".jpg" := himg_jpg
    have hcard_pos : 0 < fs.card := Finset.card_pos.mpr ⟨img, himg⟩
    have hcard1 : fs1.card = fs.card := by
      rw [hfs1, Finset.card_insert_of_not_mem hfresh_img, Finset.card_erase_of_mem himg]
      omega
    have himg_filter : img ∈ fs.filter (fun p => p.suffix = ".jpg") :=
      Finset.mem_filter.mpr ⟨himg, himg_jpg⟩
    have hjpg_pos : 0 < (fs.filter (fun p => p.suffix = ".jpg")).card :=
      Finset.card_pos.mpr ⟨img, himg_filter⟩
    have hfresh_filter : np ∉ (fs.filter (fun p => p.suffix = ".jpg")).erase img := by
      intro hcon
      exact hfresh_img (Finset.erase_subset_erase img (Finset.filter_subset _ fs) hcon)
    have hjpg1 : jpgCount fs1 = jpgCount fs := by
      rw [hfs1]
      unfold jpgCount
      rw [Finset.filter_insert, if_pos hnp_jpg, Finset.filter_erase,
        Finset.card_insert_of_not_mem hfresh_filter, Finset.card_erase_of_mem himg_filter]
      omega
    have hmem1 : ∀ p ∈ rest, p ∈ fs1 := by
      intro p hp
      have hpf : p ∈ fs := hmem p (by simp [hp])
      have hpne : p ≠ img := fun hcon => himg_rest (hcon ▸ hp)
      have hpe : p ∈ fs.erase img := Finset.mem_erase.mpr ⟨hpne, hpf⟩
      exact Finset.mem_insert_of_mem hpe
    have hfresh1 : ∀ p ∈ rest, newPath m p ∉ fs1.erase p := by
      intro p hp hcon
      have hpne : img ≠ p := fun hcon' => himg_rest (hcon' ▸ hp)
      have h1 := Finset.mem_of_mem_erase hcon
      rw [hfs1] at h1
      rcases Finset.mem_insert.mp h1 with heq | hmem'
      · have : newPath m img ≠ newPath m p :=
          hinj img (by simp) p (by simp [hp]) hpne
        rw [hnp] at this
        exact this heq.symm
      · have hne_p : newPath m p ≠ p := (Finset.mem_erase.mp hcon).1
        have : newPath m p ∈ fs.erase p :=
          Finset.mem_erase.mpr ⟨hne_p, Finset.mem_of_mem_erase hmem'⟩
        exact hfresh p (by simp [hp]) this
    obtain ⟨fs', hloop, hjc, hc, hsub⟩ :=
      ih fs1 (List.nodup_cons.mp hnd).2 hmem1
        (fun p hp => hsome p (by simp [hp]))
        (fun p hp => hjpg p (by simp [hp]))
        (fun p hp q hq hne => hinj p (by simp [hp]) q (by simp [hq]) hne)
        hfresh1
    refine ⟨fs', by rw [hstep]; exact hloop, by rw [hjc, hjpg1],
      by rw [hc, hcard1], ?_⟩
    intro x hx
    rcases Finset.mem_union.mp (hsub hx) with hx1 | hx2
    · rw [hfs1] at hx1
      rcases Finset.mem_insert.mp hx1 with heq | hxe
      · subst heq
        apply Finset.mem_union_right
        simp [hnp.symm]
      · exact Finset.mem_union_left _ (Finset.mem_of_mem_erase hxe)
    · apply Finset.mem_union_right
      simp only [List.map_cons, List.toFinset_cons, Finset.mem_insert]
      right
      simpa using hx2

/-- C9 (amended): each renamed image keeps its parent directory and its
suffix (only the stem changes); and the total number of `.jpg` files is
unchanged provided the mapping is injective on the stems present *and* no
file's new path coincides with a different file's old path (the notebook's
slugified titles satisfy both).  Injectivity of the mapping alone is not
enough, because `Path.rename` silently replaces an existing target. -/
theorem rename_loop_amended (m : String → Option String) (fs : Finset PathF)
    (todo : List PathF)
    (hnd : todo.Nodup)
    (htodo : ∀ p ∈ todo, p ∈ fs ∧ p.suffix = ".jpg")
    (hsome : ∀ p ∈ todo, (m p.stem).isSome)
    (hinj : InjOnStems m (todo.map PathF.stem).toFinset)
    (hfresh : ∀ p ∈ todo, newPath m p ∉ fs.erase p) :
    (∀ p, (newPath m p).parent = p.parent ∧ (newPath m p).suffix = p.suffix) ∧
    ∃ fs', renameLoop m fs todo = .ok fs' ∧ jpgCount fs' = jpgCount fs ∧
      fs'.card = fs.card ∧ fs' ⊆ fs ∪ (todo.map (newPath m)).toFinset := by
  refine ⟨fun p => ⟨rfl, rfl⟩, ?_⟩
  have hinj' : ∀ p ∈ todo, ∀ q ∈ todo, p ≠ q → newPath m p ≠ newPath m q := by
    intro p hp q hq hne hcon
    obtain ⟨sp, hsp⟩ := Option.isSome_iff_exists.mp (hsome p hp)
    obtain ⟨sq, hsq⟩ := Option.isSome_iff_exists.mp (hsome q hq)
    have hpar := congrArg PathF.parent hcon
    have hsuf := congrArg PathF.suffix hcon
    have hstem := congrArg PathF.stem hcon
    simp only [newPath] at hpar hsuf hstem
    rw [hsp, hsq] at hstem
    simp only [Option.getD_some] at hstem
    have hmm : m p.stem = m q.stem := by rw [hsp, hsq, hstem]
    have hmemp : p.stem ∈ (todo.map PathF.stem).toFinset :=
      List.mem_toFinset.mpr (List.mem_map_of_mem PathF.stem hp)
    have hmemq : q.stem ∈ (todo.map PathF.stem).toFinset :=
      List.mem_toFinset.mpr (List.mem_map_of_mem PathF.stem hq)
    have hseq : p.stem = q.stem :=
      hinj p.stem hmemp q.stem hmemq (by rw [hsp]; rfl) hmm
    apply hne
    obtain ⟨pp, ps, pe⟩ := p
    obtain ⟨qp, qs, qe⟩ := q
    simp only at hpar hsuf hseq
    rw [hpar, hsuf, hseq]
  exact renameLoop_ok m todo fs hnd (fun p hp => (htodo p hp).1) hsome
    (fun p hp => (htodo p hp).2) hinj' hfresh

/-- Witness for the amended C9 at a concrete input: renaming the single
image `books/a.jpg` with the mapping a ↦ b keeps the `.jpg` count at 1. -/
theorem rename_loop_amended_witness :
    (∀ p, (newPath demoMap p).parent = p.parent ∧
      (newPath demoMap p).suffix = p.suffix) ∧
    ∃ fs', renameLoop demoMap {imgA} [imgA] = .ok fs' ∧
      jpgCount fs' = jpgCount {imgA} ∧
      fs'.card = Finset.card {imgA} ∧
      fs' ⊆ {imgA} ∪ ([imgA].map (newPath demoMap)).toFinset :=
  rename_loop_amended demoMap {imgA} [imgA] (by decide) (by decide) (by decide)
    (by decide) (by decide)

/-- C9 counterexample: with the two images `books/a.jpg` and `books/b.jpg`
and a mapping sending stem `a` to `b` and stem `b` to `c` — injective on the
stems present — the loop renames `a.jpg` onto `b.jpg`, silently replacing
it, and then renames that file to `c.jpg`; a single `.jpg` file remains, so
the number of `.jpg` files drops from 2 to 1. -/
theorem rename_injective_count_cex :
    [imgA, imgB].Nodup ∧
    (∀ p ∈ [imgA, imgB], p ∈ ({imgA, imgB} : Finset PathF) ∧ p.suffix = ".jpg") ∧
    (∀ p ∈ [imgA, imgB], (demoMap p.stem).isSome) ∧
    InjOnStems demoMap ([imgA, imgB].map PathF.stem).toFinset ∧
    renameLoop demoMap {imgA, imgB} [imgA, imgB] =
      .ok {(⟨["books"], "c", ".jpg"⟩ : PathF)} ∧
    jpgCount {imgA, imgB} = 2 ∧
    jpgCount {(⟨["books"], "c", ".jpg"⟩ : PathF)} = 1 := by
  refine ⟨by decide, by decide, by decide, by decide, by decide, by decide, by decide⟩

/-! ## C10: the nested directory-creation loop -/

theorem replaceChild_append_self (cs : List (String × Entry)) (n : String) (e v : Entry)
    (h : lookupChild cs n = none) :
    replaceChild (cs ++ [(n, e)]) n v = cs ++ [(n, v)] := by
  rw [replaceChild_append, replaceChild_of_none cs n v h]
  simp [replaceChild]

theorem mkdirParents_create (cs : List (String × Entry)) (s : String) (rest : List String)
    (h : lookupChild cs "new" = none) :
    mkdirParents (.dir cs) ("new" :: s :: rest) =
      (mkdirParents (.dir []) (s :: rest)).map (fun sub' => .dir (cs ++ [("new", sub')])) := by
  simp only [mkdirParents, h]

theorem mkdirParents_lift (cs : List (String × Entry)) (N : Entry) (s : String)
    (rest : List String) (h : lookupChild cs "new" = none) :
    mkdirParents (.dir (cs ++ [("new", N)])) ("new" :: s :: rest) =
      (mkdirParents N (s :: rest)).map (fun N' => .dir (cs ++ [("new", N')])) := by
  have hl := lookupChild_append_self cs "new" N h
  cases N with
  | dir sub =>
    simp only [mkdirParents, hl]
    have hfun :
        (fun sub' => Entry.dir (replaceChild (cs ++ [("new", Entry.dir sub)]) "new" sub')) =
          (fun sub' => Entry.dir (cs ++ [("new", sub')])) :=
      funext fun sub' => by rw [replaceChild_append_self cs "new" _ sub' h]
    rw [hfun]
  | file c => simp only [mkdirParents, hl, Except.map]
  | other => simp only [mkdirParents, hl, Except.map]

theorem writeText_lift (cs : List (String × Entry)) (N : Entry) (s : String)
    (rest : List String) (x : String) (h : lookupChild cs "new" = none) :
    writeText (.dir (cs ++ [("new", N)])) ("new" :: s :: rest) x =
      (writeText N (s :: rest) x).map (fun N' => .dir (cs ++ [("new", N')])) := by
  have hl := lookupChild_append_self cs "new" N h
  simp only [writeText, hl]
  have hfun :
      (fun sub' => Entry.dir (replaceChild (cs ++ [("new", N)]) "new" sub')) =
        (fun sub' => Entry.dir (cs ++ [("new", sub')])) :=
    funext fun sub' => by rw [replaceChild_append_self cs "new" N sub' h]
  rw [hfun]

theorem mkdirLoopGo_cons (e : Entry) (c d : String) (ps : List (String × String)) :
    mkdirLoopGo e ((c, d) :: ps) =
      match mkdirParents e ["new", c, d] with
      | .error err => (e, some err)
      | .ok e1 =>
        match writeText e1 ["new", c, d, "file.txt"] "PyRVA is Awesome!" with
        | .error err => (e1, some err)
        | .ok e2 => mkdirLoopGo e2 ps := rfl

theorem mkdirLoopGo_lift (cs : List (String × Entry)) (h : lookupChild cs "new" = none) :
    ∀ (ps : List (String × String)) (N : Entry),
      mkdirLoopGo (.dir (cs ++ [("new", N)])) ps =
        (.dir (cs ++ [("new", (mkdirLoopSubGo N ps).1)]), (mkdirLoopSubGo N ps).2) := by
  intro ps
  induction ps with
  | nil => intro N; simp [mkdirLoopGo, mkdirLoopSubGo]
  | cons pr rest ih =>
    intro N
    obtain ⟨c, d⟩ := pr
    simp only [mkdirLoopGo, mkdirLoopSubGo]
    rw [mkdirParents_lift cs N c [d] h]
    cases hmk : mkdirParents N [c, d] with
    | error err => simp [hmk, Except.map]
    | ok N1 =>
      simp only [hmk, Except.map]
      rw [writeText_lift cs N1 c [d, "file.txt"] "PyRVA is Awesome!" h]
      cases hwt : writeText N1 [c, d, "file.txt"] "PyRVA is Awesome!" with
      | error err => simp [hwt, Except.map]
      | ok N2 =>
        simp only [hwt, Except.map]
        exact ih N2

theorem mkdirLoopGo_fresh (cs : List (String × Entry)) (h : lookupChild cs "new" = none)
    (c d : String) (ps : List (String × String)) :
    mkdirLoopGo (.dir cs) ((c, d) :: ps) =
      (.dir (cs ++ [("new", (mkdirLoopSubGo (.dir []) ((c, d) :: ps)).1)]),
       (mkdirLoopSubGo (.dir []) ((c, d) :: ps)).2) := by
  have hmk0 : mkdirParents (Entry.dir []) [c, d] = .ok (.dir [(c, .dir [(d, .dir [])])]) := by
    simp [mkdirParents, lookupChild, Except.map]
  simp only [mkdirLoopGo, mkdirLoopSubGo]
  rw [mkdirParents_create cs c [d] h, hmk0]
  simp only [Except.map]
  rw [writeText_lift cs (.dir [(c, .dir [(d, .dir [])])]) c [d, "file.txt"]
    "PyRVA is Awesome!" h]
  cases hwt : writeText (.dir [(c, .dir [(d, .dir [])])]) [c, d, "file.txt"]
      "PyRVA is Awesome!" with
  | error err => simp [hwt, Except.map]
  | ok N2 =>
    simp only [hwt, Except.map]
    exact mkdirLoopGo_lift cs h ps N2

/-- C10: the nested directory-creation cell is not idempotent.  Run on a
`base_dir` state with no `new` entry, it terminates without an exception,
creating under `new` a numbered directory for every letter/digit pair (26
letters times 10 digits, 260 directories), each containing `file.txt` with
the text `PyRVA is Awesome!`.  Run a second time on the state it produced,
the very first `mkdir` call raises `FileExistsError` (the directory exists
and `exist_ok` is not set) and the state is left exactly as it was: no new
directory or file is created. -/
theorem mkdir_loop_not_idempotent (cs : List (String × Entry))
    (h : lookupChild cs "new" = none) :
    ∃ N : Entry,
      mkdirLoop (.dir cs) = (.dir (cs ++ [("new", N)]), none) ∧
      (∀ c ∈ letters, ∀ d ∈ digits,
        readText N [c, d, "file.txt"] = .ok "PyRVA is Awesome!") ∧
      letters.length * digits.length = 260 ∧ letters.Nodup ∧ digits.Nodup ∧
      mkdirLoop (.dir (cs ++ [("new", N)])) =
        (.dir (cs ++ [("new", N)]), some .fileExists) := by
  refine ⟨newTree, ?_, ?_, by decide, by decide, by decide, ?_⟩
  · have hp : pairs = ("a", "0") :: pairs.tail := rfl
    unfold mkdirLoop
    rw [hp, mkdirLoopGo_fresh cs h "a" "0" pairs.tail, ← hp]
    have h2 : (mkdirLoopSubGo (.dir []) pairs).2 = none := by decide
    rw [h2]
    rfl
  · intro c hc d hd
    have hall : (letters.all fun c => digits.all fun d =>
        decide (readText newTree [c, d, "file.txt"] = .ok "PyRVA is Awesome!")) = true := by
      decide
    have h1 := List.all_eq_true.mp hall c hc
    have h2 := List.all_eq_true.mp h1 d hd
    exact of_decide_eq_true h2
  · have hp : pairs = ("a", "0") :: pairs.tail := rfl
    unfold mkdirLoop
    have hex : mkdirParents newTree ["a", "0"] = .error .fileExists := rfl
    rw [hp, mkdirLoopGo_cons, mkdirParents_lift cs newTree "a" ["0"] h, hex]
    rfl

/-- Witness for C10 at a concrete input: running the loop on an empty
`base_dir`. -/
theorem mkdir_loop_not_idempotent_witness :
    lookupChild [] "new" = none ∧
    ∃ N : Entry,
      mkdirLoop (.dir []) = (.dir ([] ++ [("new", N)]), none) ∧
      (∀ c ∈ letters, ∀ d ∈ digits,
        readText N [c, d, "file.txt"] = .ok "PyRVA is Awesome!") ∧
      letters.length * digits.length = 260 ∧ letters.Nodup ∧ digits.Nodup ∧
      mkdirLoop (.dir ([] ++ [("new", N)])) =
        (.dir ([] ++ [("new", N)]), some .fileExists) :=
  ⟨rfl, mkdir_loop_not_idempotent [] rfl⟩
